import Mathlib

/-!
Verification of the signal-auditor key-transparency core.

This file gives a shallow embedding, in Lean 4, of the log-verification core
of the `signal-auditor` repository: the prefix-tree cache (`src/prefix/mod.rs`),
the log-tree cache (`src/log/mod.rs`), the `TransparencyLog` orchestrator
(`src/transparency/mod.rs`), the auditor signing transcript
(`src/auditor/mod.rs`) and the persisted-snapshot envelope
(`src/bin/signal-auditor/storage.rs`), together with theorems settling the
frozen claims about the specification.

Modelling conventions:
* Byte strings are `List Nat` (each entry a byte value).
* SHA-256 is a parameter `sha : Bytes → Bytes` of every definition that hashes:
  the source calls the `sha2` crate; all claims here are about how the hash is
  invoked, not about its value, so the theorems hold for every hash function.
* The Ed25519 signing closure `self.key.sign` is likewise a parameter of the
  `Auditor` structure, and `self.key.verifying_key().as_bytes()` a field.
* Rust `Result`/fallible conversions become `Except String`; the error strings
  are the source's.  A method on `&mut self` that can fail becomes
  `State → State × Option String`, returning the state as mutated at the point
  of the early return (the source mutates nothing before an early return, which
  is what the atomicity theorems below prove).
* Machine integers are `Nat` with explicit wraparound where overflow is
  reachable: the `usize` subtraction `copath.len() - 1` and the `u32` counter
  increment wrap mod `2^64` / `2^32` (release-build semantics), and the byte
  encoders truncate mod `2^(8·w)` exactly as `to_be_bytes` of a cast does.
-/

/-- Byte strings: each entry is one byte value. -/
abbrev Bytes := List Nat

/-- Big-endian encoding of `n` on `w` bytes, truncating to `n % 2^(8*w)`:
the embedding of Rust's `to_be_bytes` after a wrapping cast to a `w`-byte
unsigned integer. -/
def toBytesBE : Nat → Nat → Bytes
  | 0, _ => []
  | w + 1, n => toBytesBE w (n / 256) ++ [n % 256]

/-- Two's-complement big-endian encoding of an `i64`, as `to_be_bytes` on
`i64` produces it. -/
def toBytesBEInt (t : Int) : Bytes :=
  toBytesBE 8 ((t % (2 ^ 64 : Int)).toNat)

/-- Bit `i` of a 32-byte index, MSB-first inside each byte: the source's
`index[i / 8] >> (7 - (i % 8)) & 1` (`src/prefix/mod.rs:326`). -/
def bitAt (index : Bytes) (i : Nat) : Nat :=
  ((index.getD (i / 8) 0) / 2 ^ (7 - i % 8)) % 2

/-- `PrefixLeaf` from `src/prefix/mod.rs`: `index`, `counter` (u32 version),
`position` (u64 log index of first appearance). -/
structure PrefixLeaf where
  index : Bytes
  counter : Nat
  position : Nat
deriving Repr, DecidableEq

/-- `leaf_hash` from `src/prefix/mod.rs:249`: SHA-256 over the tag `0x00`,
the 32-byte index, the big-endian u32 counter and the big-endian u64
position. -/
def leaf_hash (sha : Bytes → Bytes) (leaf : PrefixLeaf) : Bytes :=
  sha ([0x00] ++ leaf.index ++ toBytesBE 4 leaf.counter ++ toBytesBE 8 leaf.position)

/-- `stand_in_hash` from `src/prefix/mod.rs:258`: SHA-256 over the tag `0x02`,
the 16-byte seed and the one-byte level (`level` is a `u8` in the source; every
call site below passes a value `< 256`). -/
def stand_in_hash (sha : Bytes → Bytes) (seed : Bytes) (level : Nat) : Bytes :=
  sha ([0x02] ++ seed ++ [level % 256])

/-- `parent_hash` from `src/prefix/mod.rs:266`: SHA-256 over the tag `0x01`
and the two child hashes. -/
def parent_hash (sha : Bytes → Bytes) (left right : Bytes) : Bytes :=
  sha ([0x01] ++ left ++ right)

/-- `PrefixProof` from `src/prefix/mod.rs`: a value standing at copath-array
position `copath.length` on the direct path to `index`, with its copath. -/
structure PrefixProof where
  value : Bytes
  index : Bytes
  copath : List Bytes
deriving Repr, DecidableEq

/-- The loop of `PrefixProof::compute_root` (`src/prefix/mod.rs:322`): the
source iterates `i` from `copath.len() - 1` down to `0`, combining the running
node with `copath[i]` on the side selected by bit `i` of the index.  Here the
recursion descends the copath list from position `i`: the deeper suffix is
hashed first, then combined at position `i`, which is the same evaluation
order. -/
def computeRootGo (sha : Bytes → Bytes) (index : Bytes) :
    List Bytes → Nat → Bytes → Bytes
  | [], _, node => node
  | c :: rest, i, node =>
    let inner := computeRootGo sha index rest (i + 1) node
    if bitAt index i = 0 then parent_hash sha inner c else parent_hash sha c inner

/-- `PrefixProof::compute_root` from `src/prefix/mod.rs:322`. -/
def PrefixProof.compute_root (sha : Bytes → Bytes) (p : PrefixProof) : Bytes :=
  computeRootGo sha p.index p.copath 0 p.value

/-- `PrefixProof::fake` from `src/prefix/mod.rs:286`.  The source computes
`(copath.len() - 1).try_into::<u8>()`: the `usize` subtraction wraps mod
`2^64` (so an empty copath yields `2^64 - 1`), and the conversion fails with
"Copath too long" whenever the result exceeds `255`. -/
def PrefixProof.fake (sha : Bytes → Bytes) (index : Bytes) (copath : List Bytes)
    (seed : Bytes) : Except String PrefixProof :=
  let level := (copath.length + (2 ^ 64 - 1)) % 2 ^ 64
  if level > 255 then .error "Copath too long"
  else .ok ⟨stand_in_hash sha seed level, index, copath⟩

/-- `PrefixProof::real` from `src/prefix/mod.rs:301`: rejects copaths longer
than 256, fills positions `copath.len()..256` with stand-ins from the seed,
and terminates in the leaf hash. -/
def PrefixProof.real (sha : Bytes → Bytes) (leaf : PrefixLeaf)
    (copath : List Bytes) (seed : Bytes) : Except String PrefixProof :=
  if copath.length > 256 then .error "Copath too long"
  else .ok ⟨leaf_hash sha leaf, leaf.index,
    copath ++ ((List.range 256).drop copath.length).map (stand_in_hash sha seed)⟩

/-- `PrefixTreeCache` from `src/prefix/mod.rs:29`: current head and the number
of prefix-tree updates applied (`size : u64`; modelled as `Nat` — the
increment-by-one counter cannot reach `2^64` in any execution). -/
structure PrefixTreeCache where
  head : Bytes
  size : Nat
deriving Repr, DecidableEq

/-- `PrefixTreeCache::new` (`src/prefix/mod.rs:118`): default (all-zero) head,
size 0. -/
def PrefixTreeCache.new : PrefixTreeCache :=
  ⟨List.replicate 32 0, 0⟩

/-- `PrefixTreeCache::is_initialized` (`src/prefix/mod.rs:125`). -/
def PrefixTreeCache.isInit (st : PrefixTreeCache) : Bool :=
  st.size > 0

/-- `PrefixTreeUpdate` from `src/prefix/mod.rs:41`. -/
inductive PrefixTreeUpdate where
  | NewTree (index : Bytes) (seed : Bytes)
  | DifferentKey (real : Bool) (index : Bytes) (seed : Bytes)
      (old_seed : Bytes) (copath : List Bytes)
  | SameKey (index : Bytes) (copath : List Bytes) (seed : Bytes)
      (counter : Nat) (position : Nat)
deriving Repr, DecidableEq

/-- The tail of `PrefixTreeCache::apply_update` (`src/prefix/mod.rs:228`):
`self.head = proof?.compute_root(); self.size += 1`.  On `Err` the early
return leaves the cache untouched. -/
def applyProof (sha : Bytes → Bytes) (st : PrefixTreeCache) :
    Except String PrefixProof → PrefixTreeCache × Option String
  | .error e => (st, some e)
  | .ok p => (⟨p.compute_root sha, st.size + 1⟩, none)

/-- `PrefixTreeCache::apply_update` from `src/prefix/mod.rs:136`, with the
source's control flow: each `return Err(...)` yields the untouched cache and
the error string; otherwise the head and size advance via `applyProof`. -/
def PrefixTreeCache.apply_update (sha : Bytes → Bytes) (st : PrefixTreeCache) :
    PrefixTreeUpdate → PrefixTreeCache × Option String
  | .NewTree index seed =>
    if st.isInit then (st, some "Tree already initialized")
    else applyProof sha st (PrefixProof.real sha ⟨index, 0, 0⟩ [] seed)
  | .SameKey index copath seed counter position =>
    if !st.isInit then (st, some "Tree not initialized")
    else
      match PrefixProof.real sha ⟨index, counter, position⟩ copath seed with
      | .error e => (st, some e)
      | .ok proof =>
        if proof.compute_root sha ≠ st.head then (st, some "Old root mismatch")
        else applyProof sha st
          (PrefixProof.real sha ⟨index, (counter + 1) % 2 ^ 32, position⟩ copath seed)
  | .DifferentKey real index seed old_seed copath =>
    if !st.isInit then (st, some "Tree not initialized")
    else
      match PrefixProof.fake sha index copath old_seed with
      | .error e => (st, some e)
      | .ok proof =>
        if proof.compute_root sha ≠ st.head then (st, some "Old root mismatch")
        else applyProof sha st
          (if real then PrefixProof.real sha ⟨index, 0, st.size⟩ copath seed
           else PrefixProof.fake sha index copath seed)

/-- `PrefixTreeCache::root` from `src/prefix/mod.rs:234`: `Some(head)` when
initialized, else `None`. -/
def PrefixTreeCache.root (st : PrefixTreeCache) : Option Bytes :=
  if st.isInit then some st.head else none

/-- `LogNode` from `src/log/mod.rs:45`: root of a maximal complete balanced
subtree and its size (a power of two; `size == 1` means a leaf). -/
structure LogNode where
  root : Bytes
  size : Nat
deriving Repr, DecidableEq

/-- `LogNode::as_bytes` from `src/log/mod.rs:54`: 33 bytes, a flag byte that
is `(size != 1) as u8`, then the 32-byte root. -/
def LogNode.as_bytes (n : LogNode) : Bytes :=
  (if n.size ≠ 1 then 1 else 0) :: n.root

/-- `tree_hash` from `src/log/mod.rs:120`: SHA-256 of the concatenated 33-byte
serializations, with no extra tag. -/
def tree_hash (sha : Bytes → Bytes) (left right : LogNode) : Bytes :=
  sha (left.as_bytes ++ right.as_bytes)

/-- `LogTreeCache` from `src/log/mod.rs:66`: the maximal complete subtree
roots, leftmost first (the source's `Vec` order; `Vec::pop` acts on the last
element). -/
structure LogTreeCache where
  roots : List LogNode
deriving Repr, DecidableEq

/-- `LogTreeCache::new` (`src/log/mod.rs:71`). -/
def LogTreeCache.new : LogTreeCache := ⟨[]⟩

/-- The `while let Some(x) = self.roots.pop()` loop of `LogTreeCache::insert`
(`src/log/mod.rs:84`), acting on the reversed list (rightmost node first):
while the rightmost node has the same size as the new node, pop it and combine
into a subtree of twice the size; then push the new node. -/
def insertLoop (sha : Bytes → Bytes) : LogNode → List LogNode → List LogNode
  | new, [] => [new]
  | new, x :: rest =>
    if x.size = new.size then insertLoop sha ⟨tree_hash sha x new, new.size * 2⟩ rest
    else new :: x :: rest

/-- `LogTreeCache::insert` from `src/log/mod.rs:76`. -/
def LogTreeCache.insert (sha : Bytes → Bytes) (st : LogTreeCache)
    (entry : Bytes) : LogTreeCache :=
  ⟨(insertLoop sha ⟨entry, 1⟩ st.roots.reverse).reverse⟩

/-- The `while let Some(x) = roots.pop()` loop of `LogTreeCache::root`
(`src/log/mod.rs:109`), acting on the reversed remainder: combine the
accumulator with the next node to its left, summing sizes. -/
def rootLoop (sha : Bytes → Bytes) : LogNode → List LogNode → LogNode
  | acc, [] => acc
  | acc, x :: rest => rootLoop sha ⟨tree_hash sha x acc, x.size + acc.size⟩ rest

/-- The root fold of `LogTreeCache::root` (`src/log/mod.rs:106`) as a partial
function: `none` when the cache holds no nodes (where the source unwraps),
otherwise the right-to-left fold starting from the rightmost cached node. -/
def LogTreeCache.fold_root (sha : Bytes → Bytes) (st : LogTreeCache) : Option Bytes :=
  match st.roots.reverse with
  | [] => none
  | r :: rest => some (rootLoop sha r rest).root

/-- Outcome of `LogTreeCache::root`: the source's return type is `Hash`, so
the function can only return a hash or abort; `panicked` records the
`.expect("Log tree is nonempty")` panic on an empty cache
(`src/log/mod.rs:108`). -/
inductive RootResult where
  | ok (h : Bytes)
  | panicked (msg : String)
deriving Repr, DecidableEq

/-- `LogTreeCache::root` from `src/log/mod.rs:106`: unwraps the fold with
`.expect("Log tree is nonempty")`. -/
def LogTreeCache.root (sha : Bytes → Bytes) (st : LogTreeCache) : RootResult :=
  match st.fold_root sha with
  | some h => .ok h
  | none => .panicked "Log tree is nonempty"

/-- A decoded `AuditorProof` wire message (`oneof proof` of the protobuf
schema): `NewTree`, `DifferentKey{copath, old_seed}` or
`SameKey{copath, counter, position}`. -/
inductive WireProof where
  | NewTree
  | DifferentKey (copath : List Bytes) (old_seed : Bytes)
  | SameKey (copath : List Bytes) (counter : Nat) (position : Nat)
deriving Repr, DecidableEq

/-- The `AuditorUpdate` wire message: raw byte fields of unchecked length and
an optional proof (`proof: Option<AuditorProof>`, whose inner `oneof` is again
optional; the two layers collapse to one `Option` here, as in the source's
`update.proof.and_then(|x| x.proof)`). -/
structure AuditorUpdate where
  real : Bool
  index : Bytes
  seed : Bytes
  commitment : Bytes
  proof : Option WireProof
deriving Repr, DecidableEq

/-- `try_into_hash` from `src/lib.rs` as used by the transparency module: a
32-byte check. -/
def try_into_hash (x : Bytes) : Except String Bytes :=
  if x.length = 32 then .ok x else .error "Invalid hash"

/-- The index conversion `update.index.try_into()` (`[u8; 32]`). -/
def tryIntoIndex (x : Bytes) : Except String Bytes :=
  if x.length = 32 then .ok x else .error "Invalid index"

/-- The seed conversion `update.seed.try_into()` (`[u8; 16]`). -/
def tryIntoSeed (e : String) (x : Bytes) : Except String Bytes :=
  if x.length = 16 then .ok x else .error e

/-- `TryFrom<AuditorUpdate> for PrefixTreeUpdate` from `src/prefix/mod.rs:64`:
requires a proof to be present, rejects fake `NewTree`/`SameKey` updates, and
checks every field length. -/
def PrefixTreeUpdate.tryFrom (u : AuditorUpdate) : Except String PrefixTreeUpdate := do
  match u.proof with
  | none => .error "Missing proof"
  | some .NewTree =>
    if !u.real then .error "Fake update"
    else do
      let index ← tryIntoIndex u.index
      let seed ← tryIntoSeed "Invalid seed" u.seed
      .ok (.NewTree index seed)
  | some (.DifferentKey copath old_seed) => do
    let index ← tryIntoIndex u.index
    let seed ← tryIntoSeed "Invalid seed" u.seed
    let old ← tryIntoSeed "Invalid old seed" old_seed
    let cp ← copath.mapM try_into_hash
    .ok (.DifferentKey u.real index seed old cp)
  | some (.SameKey copath counter position) =>
    if !u.real then .error "Fake update"
    else do
      let index ← tryIntoIndex u.index
      let cp ← copath.mapM try_into_hash
      let seed ← tryIntoSeed "Invalid seed" u.seed
      .ok (.SameKey index cp seed counter position)

/-- `TransparencyLog` from `src/transparency/mod.rs:20`: the log-tree cache and
the prefix-tree cache. -/
structure TransparencyLog where
  log_cache : LogTreeCache
  prefix_cache : PrefixTreeCache
deriving Repr, DecidableEq

/-- `TransparencyLog::new` (`src/transparency/mod.rs:32`). -/
def TransparencyLog.new : TransparencyLog :=
  ⟨LogTreeCache.new, PrefixTreeCache.new⟩

/-- `TransparencyLog::size` (`src/transparency/mod.rs:39`):
`prefix_cache.size`. -/
def TransparencyLog.size (L : TransparencyLog) : Nat :=
  L.prefix_cache.size

/-- `TransparencyLog::is_initialized` (`src/transparency/mod.rs:43`). -/
def TransparencyLog.isInit (L : TransparencyLog) : Bool :=
  L.size > 0

/-- `log_leaf` from `src/transparency/mod.rs:70`: SHA-256 of
`prefix_root ‖ commitment`, no tag. -/
def log_leaf (sha : Bytes → Bytes) (prefix_root commitment : Bytes) : Bytes :=
  sha (prefix_root ++ commitment)

/-- `TransparencyLog::apply_update` from `src/transparency/mod.rs:47` with the
source's control flow: extract the commitment, decode the typed update, apply
it to the prefix cache (whose in-place mutation is the returned cache), then
append `log_leaf` to the log cache.  Every early return carries the state as
mutated so far. -/
def TransparencyLog.apply_update (sha : Bytes → Bytes) (L : TransparencyLog)
    (u : AuditorUpdate) : TransparencyLog × Option String :=
  match try_into_hash u.commitment with
  | .error e => (L, some e)
  | .ok commitment =>
    match PrefixTreeUpdate.tryFrom { u with commitment := [] } with
    | .error e => (L, some e)
    | .ok pu =>
      match L.prefix_cache.apply_update sha pu with
      | (pc, some e) => ({ L with prefix_cache := pc }, some e)
      | (pc, none) =>
        match pc.root with
        | none => ({ L with prefix_cache := pc }, some "Prefix tree not initialized")
        | some prefix_root =>
          ({ log_cache := L.log_cache.insert sha (log_leaf sha prefix_root commitment),
             prefix_cache := pc }, none)

/-- `TransparencyLog::log_root` from `src/transparency/mod.rs:62`: an error
when not initialized; otherwise the log-cache root, with the empty-cache case
mapped to the error the caller attaches (`.ok_or(anyhow!("Log tree is
empty"))`, `src/transparency/mod.rs:66`). -/
def TransparencyLog.log_root (sha : Bytes → Bytes) (L : TransparencyLog) :
    Except String Bytes :=
  if !L.isInit then .error "Log is not initialized"
  else
    match L.log_cache.fold_root sha with
    | none => .error "Log tree is empty"
    | some h => .ok h

/-- `DeploymentMode` from `src/auditor/mod.rs:15`. -/
inductive DeploymentMode where
  | ContactMonitoring
  | ThirdPartyManagement
  | ThirdPartyAuditing
deriving Repr, DecidableEq

/-- `impl From<DeploymentMode> for u8` (`src/auditor/mod.rs:21`):
ContactMonitoring → 1, ThirdPartyManagement → 2, ThirdPartyAuditing → 3. -/
def DeploymentMode.toByte : DeploymentMode → Nat
  | .ContactMonitoring => 1
  | .ThirdPartyManagement => 2
  | .ThirdPartyAuditing => 3

/-- `PublicConfig` from `src/auditor/mod.rs:45`: deployment mode and the log
operator's Ed25519 signing and VRF public keys (32 bytes each as byte
strings). -/
structure PublicConfig where
  mode : DeploymentMode
  sig_key : Bytes
  vrf_key : Bytes

/-- `Auditor` from `src/auditor/mod.rs:54`.  The Ed25519 private key is
represented by what the code uses it for: `sign` is the closure
`|msg| self.key.sign(msg).to_vec()` and `verifying_key` the byte string
`self.key.verifying_key().as_bytes()`. -/
structure Auditor where
  config : PublicConfig
  sign : Bytes → Bytes
  verifying_key : Bytes

/-- `AuditorTreeHead` (the wire `SignedTreeHead`): `tree_size : u64`,
`signature : bytes`, `timestamp : i64`. -/
structure AuditorTreeHead where
  tree_size : Nat
  signature : Bytes
  timestamp : Int
deriving Repr, DecidableEq

/-- The message built by `Auditor::sign_at_time` (`src/auditor/mod.rs:65`),
straight from the source: ciphersuite `[0, 0]`, the mode byte, the
length-prefixed signing and VRF keys, the length-prefixed auditor verifying
key exactly when the mode is `ThirdPartyAuditing`, the big-endian u64 size,
the big-endian i64 timestamp, and the head. -/
def signMessage (a : Auditor) (head : Bytes) (size : Nat) (time : Int) : Bytes :=
  [0, 0] ++ [a.config.mode.toByte]
    ++ toBytesBE 2 a.config.sig_key.length ++ a.config.sig_key
    ++ toBytesBE 2 a.config.vrf_key.length ++ a.config.vrf_key
    ++ (if a.config.mode = .ThirdPartyAuditing then
          toBytesBE 2 a.verifying_key.length ++ a.verifying_key
        else [])
    ++ toBytesBE 8 size ++ toBytesBEInt time ++ head

/-- `Auditor::sign_at_time` from `src/auditor/mod.rs:65`: signs `signMessage`
and returns the tree head carrying the same size and timestamp. -/
def Auditor.sign_at_time (a : Auditor) (head : Bytes) (size : Nat)
    (time : Int) : AuditorTreeHead :=
  ⟨size, a.sign (signMessage a head size time), time⟩

/-- The `as i64` cast of the `u128` returned by `as_millis`
(`src/auditor/mod.rs:109`): truncate to 64 bits, reinterpret two's
complement. -/
def milliToI64 (ms : Nat) : Int :=
  if ms % 2 ^ 64 < 2 ^ 63 then ((ms % 2 ^ 64 : Nat) : Int)
  else ((ms % 2 ^ 64 : Nat) : Int) - 2 ^ 64

/-- `Auditor::sign_head` from `src/auditor/mod.rs:104`.  The wall clock is a
parameter: `now_millis` is what
`SystemTime::now().duration_since(UNIX_EPOCH).unwrap().as_millis()` returns —
the current time in milliseconds since the Unix epoch — and the source then
casts it `as i64` and calls `sign_at_time`. -/
def Auditor.sign_head (a : Auditor) (head : Bytes) (size : Nat)
    (now_millis : Nat) : AuditorTreeHead :=
  a.sign_at_time head size (milliToI64 now_millis)

/-- `StoredHead` from `src/bin/signal-auditor/storage.rs:25`: the persisted
snapshot envelope as that file declares it — a version byte and the
CBOR-serialized payload.  It has no MAC field. -/
structure StoredHead where
  version : Nat
  log_cache : Bytes
deriving Repr, DecidableEq

/-- `serialize_head` from `src/bin/signal-auditor/storage.rs:45`.  The inner
`serde_cbor::to_vec_packed` payload serialization is the parameter `enc`;
the outer CBOR framing of the two-field struct is the `StoredHead` record
itself.  Despite its doc comment ("include a MAC"), the function computes no
MAC. -/
def serialize_head (enc : TransparencyLog → Bytes) (head : TransparencyLog) :
    StoredHead :=
  ⟨1, enc head⟩

/-- `deserialize_head` from `src/bin/signal-auditor/storage.rs:55`.  `dec` is
the payload deserialization (`serde_cbor::from_slice`), `none` standing for a
decode error.  Despite its doc comment ("verify the MAC"), the function checks
only the version byte: it takes no key and verifies nothing else. -/
def deserialize_head (dec : Bytes → Option TransparencyLog) (s : StoredHead) :
    Except String TransparencyLog :=
  if s.version ≠ 1 then .error "Invalid version"
  else
    match dec s.log_cache with
    | none => .error "Invalid payload"
    | some L => .ok L

/-- Fold a list of leaves into a fresh log-tree cache:
"after inserting n leaves into an initially empty LogTreeCache". -/
def applyInserts (sha : Bytes → Bytes) (leaves : List Bytes) : LogTreeCache :=
  leaves.foldl (fun st entry => st.insert sha entry) LogTreeCache.new

/-- The size-level shadow of `insertLoop` on the reversed (rightmost-first)
size list: the binary-counter carry step. -/
def bump (s : Nat) : List Nat → List Nat
  | [] => [s]
  | x :: rest => if x = s then bump (2 * s) rest else s :: x :: rest

/-- The powers of two set in the binary representation of `n`, in ascending
order (least significant first). -/
def binAsc (n : Nat) : List Nat :=
  if h : n = 0 then []
  else if n % 2 = 1 then 1 :: (binAsc (n / 2)).map (fun x => 2 * x)
  else (binAsc (n / 2)).map (fun x => 2 * x)
decreasing_by
  all_goals exact Nat.div_lt_self (Nat.pos_of_ne_zero h) Nat.one_lt_two

/-- The log root as the specification states it: fold the cached nodes
right-to-left, starting from the rightmost node and repeatedly combining with
the next node to its left via the parent hash. -/
def specFoldRoot (sha : Bytes → Bytes) (nodes : List LogNode) : Bytes :=
  (nodes.dropLast.foldr
    (fun x acc => ⟨tree_hash sha x acc, x.size + acc.size⟩)
    (nodes.getLastD ⟨[], 0⟩)).root

/-- The signing transcript as the specification states it (§4.5): the 2-byte
ciphersuite `0x00 0x00`, one mode byte, the 2-byte big-endian length 32 and
the 32-byte signing key, the 2-byte big-endian length 32 and the 32-byte VRF
key, then — exactly when the mode is ThirdPartyAuditing — the 2-byte
big-endian length 32 and the 32-byte auditor public key, the 8-byte big-endian
tree size, the 8-byte big-endian signed timestamp and the 32-byte log root. -/
def specTranscript (mode : DeploymentMode) (sig_key vrf_key auditor_key : Bytes)
    (size : Nat) (time : Int) (head : Bytes) : Bytes :=
  [0x00, 0x00] ++ [mode.toByte]
    ++ [0, 32] ++ sig_key
    ++ [0, 32] ++ vrf_key
    ++ (if mode = .ThirdPartyAuditing then [0, 32] ++ auditor_key else [])
    ++ toBytesBE 8 size ++ toBytesBEInt time ++ head

/-- A degenerate hash function used by the concrete witnesses: the theorems
hold for every `sha`, so a constant function suffices to evaluate them. -/
def shaTriv : Bytes → Bytes := fun _ => []

/-- `applyProof` either reports an error and returns the cache untouched, or
succeeds and returns a cache whose size grew by one. -/
theorem applyProof_cases (sha : Bytes → Bytes) (st : PrefixTreeCache)
    (res : Except String PrefixProof) :
    ((applyProof sha st res).2.isSome ∧ (applyProof sha st res).1 = st)
    ∨ ((applyProof sha st res).2 = none
        ∧ (applyProof sha st res).1.size = st.size + 1) := by
  cases res <;> simp [applyProof]

/-- `PrefixTreeCache::apply_update` either errors with the cache untouched or
succeeds with the size grown by one. -/
theorem prefix_apply_cases (sha : Bytes → Bytes) (st : PrefixTreeCache)
    (pu : PrefixTreeUpdate) :
    ((st.apply_update sha pu).2.isSome ∧ (st.apply_update sha pu).1 = st)
    ∨ ((st.apply_update sha pu).2 = none
        ∧ (st.apply_update sha pu).1.size = st.size + 1) := by
  cases pu with
  | NewTree index seed =>
    simp only [PrefixTreeCache.apply_update]
    split
    · left; simp
    · exact applyProof_cases ..
  | SameKey index copath seed counter position =>
    simp only [PrefixTreeCache.apply_update]
    split
    · left; simp
    · split
      · left; simp
      · split
        · left; simp
        · exact applyProof_cases ..
  | DifferentKey real index seed old_seed copath =>
    simp only [PrefixTreeCache.apply_update]
    split
    · left; simp
    · split
      · left; simp
      · split
        · left; simp
        · exact applyProof_cases ..

/-- On error the prefix cache is untouched. -/
theorem prefix_apply_error_frame (sha : Bytes → Bytes) (st : PrefixTreeCache)
    (pu : PrefixTreeUpdate) (e : String)
    (h : (st.apply_update sha pu).2 = some e) :
    (st.apply_update sha pu).1 = st := by
  rcases prefix_apply_cases sha st pu with ⟨_, hst⟩ | ⟨hnone, _⟩
  · exact hst
  · rw [hnone] at h; cases h

/-- On success the prefix cache's size grows by exactly one. -/
theorem prefix_apply_ok_size (sha : Bytes → Bytes) (st : PrefixTreeCache)
    (pu : PrefixTreeUpdate)
    (h : (st.apply_update sha pu).2 = none) :
    (st.apply_update sha pu).1.size = st.size + 1 := by
  rcases prefix_apply_cases sha st pu with ⟨hs, _⟩ | ⟨_, hsz⟩
  · rw [h] at hs; cases hs
  · exact hsz

/-- C1.  For every `TransparencyLog` state and every wire `AuditorUpdate`, if
`apply_update` returns an error then the state is unchanged: the whole state —
in particular `size()` and `log_root()`, i.e. the prefix cache's head and size
and the log cache's roots — equals its pre-call value. -/
theorem apply_update_error_preserves_state (sha : Bytes → Bytes)
    (L : TransparencyLog) (u : AuditorUpdate) (e : String)
    (h : (L.apply_update sha u).2 = some e) :
    (L.apply_update sha u).1 = L
    ∧ (L.apply_update sha u).1.size = L.size
    ∧ (L.apply_update sha u).1.log_root sha = L.log_root sha := by
  have hmain : (L.apply_update sha u).1 = L := by
    simp only [TransparencyLog.apply_update] at h ⊢
    rcases hc : try_into_hash u.commitment with ec | commitment
    · simp [hc]
    · rcases hf : PrefixTreeUpdate.tryFrom { u with commitment := [] } with ef | pu
      · simp [hc, hf]
      · rcases hp : L.prefix_cache.apply_update sha pu with ⟨pc, err⟩
        cases err with
        | some e' =>
          have hframe : pc = L.prefix_cache := by
            have := prefix_apply_error_frame sha L.prefix_cache pu e'
            rw [hp] at this; exact this rfl
          simp [hc, hf, hp, hframe]
        | none =>
          have hsz : pc.size = L.prefix_cache.size + 1 := by
            have := prefix_apply_ok_size sha L.prefix_cache pu
            rw [hp] at this; exact this rfl
          have hroot : pc.root = some pc.head := by
            simp [PrefixTreeCache.root, PrefixTreeCache.isInit, hsz]
          simp only [hc, hf, hp, hroot] at h
          cases h
  exact ⟨hmain, by rw [hmain], by rw [hmain]⟩

/-- Concrete instance of C1: an update with an ill-sized (empty) commitment is
rejected with "Invalid hash" and the fresh log is returned unchanged. -/
theorem apply_update_error_preserves_state_witness :
    (TransparencyLog.apply_update shaTriv TransparencyLog.new
        ⟨true, [], [], [], none⟩).2 = some "Invalid hash"
    ∧ (TransparencyLog.apply_update shaTriv TransparencyLog.new
        ⟨true, [], [], [], none⟩).1 = TransparencyLog.new := by
  refine ⟨by decide, ?_⟩
  exact (apply_update_error_preserves_state shaTriv TransparencyLog.new
    ⟨true, [], [], [], none⟩ "Invalid hash" (by decide)).1

/-- C7.  On an initialized prefix tree, a `DifferentKey` update with an empty
copath is rejected — the wrapped `usize` computation `copath.len() - 1`
produces `2^64 - 1`, the `u8` conversion fails, and `apply_update` returns the
structural ("Copath too long", the spec's `MalformedUpdate` class) error with
the cache untouched; and `PrefixProof::fake` itself yields an error, not a
stand-in, on an empty copath. -/
theorem different_key_empty_copath_rejected (sha : Bytes → Bytes)
    (st : PrefixTreeCache) (real : Bool) (index seed old_seed : Bytes)
    (hinit : 0 < st.size) :
    st.apply_update sha (.DifferentKey real index seed old_seed [])
      = (st, some "Copath too long")
    ∧ PrefixProof.fake sha index [] old_seed = .error "Copath too long" := by
  have hfake : PrefixProof.fake sha index [] old_seed = .error "Copath too long" := by
    simp only [PrefixProof.fake, List.length_nil, Nat.zero_add]
    norm_num
  refine ⟨?_, hfake⟩
  simp [PrefixTreeCache.apply_update, PrefixTreeCache.isInit, hfake, hinit]

/-- Concrete instance of C7: the empty-copath `DifferentKey` update is
rejected on a size-1 tree and the cache is unchanged. -/
theorem different_key_empty_copath_rejected_witness :
    PrefixTreeCache.apply_update shaTriv ⟨[], 1⟩
        (.DifferentKey false [] [] [] []) = (⟨[], 1⟩, some "Copath too long") :=
  (different_key_empty_copath_rejected shaTriv ⟨[], 1⟩ false [] [] []
    (by decide)).1

/-- `PrefixProof::fake` errors exactly when the wrapped level does not fit a
`u8`. -/
theorem fake_eq_error (sha : Bytes → Bytes) (index : Bytes) (copath : List Bytes)
    (seed : Bytes) (hlen : (copath.length + (2 ^ 64 - 1)) % 2 ^ 64 > 255) :
    PrefixProof.fake sha index copath seed = .error "Copath too long" := by
  unfold PrefixProof.fake
  exact if_pos hlen

/-- `PrefixProof::fake` on a representable level: the stand-in at the wrapped
level, with the copath as supplied. -/
theorem fake_eq_ok (sha : Bytes → Bytes) (index : Bytes) (copath : List Bytes)
    (seed : Bytes) (hlen : ¬ (copath.length + (2 ^ 64 - 1)) % 2 ^ 64 > 255) :
    PrefixProof.fake sha index copath seed
      = .ok ⟨stand_in_hash sha seed ((copath.length + (2 ^ 64 - 1)) % 2 ^ 64),
          index, copath⟩ := by
  unfold PrefixProof.fake
  exact if_neg hlen

/-- `PrefixProof::real` on a copath of admissible length: the leaf hash with
the copath extended by stand-ins from the seed. -/
theorem real_eq_ok (sha : Bytes → Bytes) (leaf : PrefixLeaf) (copath : List Bytes)
    (seed : Bytes) (hlen : ¬ copath.length > 256) :
    PrefixProof.real sha leaf copath seed
      = .ok ⟨leaf_hash sha leaf, leaf.index,
          copath ++ ((List.range 256).drop copath.length).map (stand_in_hash sha seed)⟩ := by
  unfold PrefixProof.real
  exact if_neg hlen

/-- `computeRootGo` reads only the index bits at the copath positions it
walks: two indices agreeing on positions `i ≤ j < i + copath.length` yield the
same hash. -/
theorem computeRootGo_congr (sha : Bytes → Bytes) (idx1 idx2 : Bytes)
    (copath : List Bytes) (i : Nat) (node : Bytes)
    (h : ∀ j, i ≤ j → j < i + copath.length → bitAt idx1 j = bitAt idx2 j) :
    computeRootGo sha idx1 copath i node = computeRootGo sha idx2 copath i node := by
  induction copath generalizing i with
  | nil => rfl
  | cons c rest ih =>
    have hinner : computeRootGo sha idx1 rest (i + 1) node
        = computeRootGo sha idx2 rest (i + 1) node := by
      refine ih (i + 1) ?_
      intro j hj1 hj2
      refine h j (by omega) (by simp at hj2 ⊢; omega)
    have hbit : bitAt idx1 i = bitAt idx2 i := h i le_rfl (by simp)
    simp only [computeRootGo, hinner, hbit]

/-- C10.  On an initialized prefix tree, the result of a fake
(`real == false`) `DifferentKey` update with non-empty copath — acceptance and
the new state alike — depends only on the first `copath.length` bits of the
index (together with the copath and the two seeds): indices agreeing on those
bits give identical outcomes. -/
theorem fake_update_depends_on_low_bits (sha : Bytes → Bytes)
    (st : PrefixTreeCache) (seed old_seed : Bytes) (copath : List Bytes)
    (idx1 idx2 : Bytes) (hinit : 0 < st.size) (_hne : copath ≠ [])
    (hbits : ∀ j, j < copath.length → bitAt idx1 j = bitAt idx2 j) :
    st.apply_update sha (.DifferentKey false idx1 seed old_seed copath)
      = st.apply_update sha (.DifferentKey false idx2 seed old_seed copath) := by
  have hcongr : ∀ v : Bytes, computeRootGo sha idx1 copath 0 v
      = computeRootGo sha idx2 copath 0 v := by
    intro v
    exact computeRootGo_congr sha idx1 idx2 copath 0 v
      (fun j _ hj => hbits j (by omega))
  have hInit : st.isInit = true := by simp [PrefixTreeCache.isInit, hinit]
  simp only [PrefixTreeCache.apply_update, hInit, Bool.not_true, Bool.false_eq_true,
    if_false]
  by_cases hlen : (copath.length + (2 ^ 64 - 1)) % 2 ^ 64 > 255
  · rw [fake_eq_error sha idx1 copath old_seed hlen,
      fake_eq_error sha idx2 copath old_seed hlen]
  · rw [fake_eq_ok sha idx1 copath old_seed hlen,
      fake_eq_ok sha idx2 copath old_seed hlen]
    simp only [PrefixProof.compute_root, hcongr]
    rw [fake_eq_ok sha idx1 copath seed hlen, fake_eq_ok sha idx2 copath seed hlen]
    simp only [applyProof, PrefixProof.compute_root, hcongr]

/-- C2.  On an initialized prefix tree, a `DifferentKey` update with a
non-empty copath (of admissible length, so that the level byte
`copath.length - 1` exists): the update verifies that the stand-in at level
`copath.length - 1` derived from `old_seed`, hashed up through the supplied
copath along the index bits, reconstructs the current head, failing with the
root-mismatch error (state untouched) otherwise; on success, when
`real = true` the new head is recomputed from the real leaf
`{index, counter = 0, position = size}` with the copath extended by stand-ins
from the new seed, when `real = false` from a fresh stand-in at the same level
derived from the new seed; in both cases the size grows by one. -/
theorem different_key_semantics (sha : Bytes → Bytes) (st : PrefixTreeCache)
    (real : Bool) (index seed old_seed : Bytes) (copath : List Bytes)
    (hinit : 0 < st.size) (hne : 0 < copath.length) (hlen : copath.length ≤ 256) :
    (computeRootGo sha index copath 0
        (stand_in_hash sha old_seed (copath.length - 1)) ≠ st.head →
      st.apply_update sha (.DifferentKey real index seed old_seed copath)
        = (st, some "Old root mismatch"))
    ∧ (computeRootGo sha index copath 0
        (stand_in_hash sha old_seed (copath.length - 1)) = st.head →
      st.apply_update sha (.DifferentKey real index seed old_seed copath)
        = (⟨if real then
              computeRootGo sha index
                (copath ++ ((List.range 256).drop copath.length).map
                  (stand_in_hash sha seed))
                0 (leaf_hash sha ⟨index, 0, st.size⟩)
            else
              computeRootGo sha index copath 0
                (stand_in_hash sha seed (copath.length - 1)),
            st.size + 1⟩, none)) := by
  have hInit : st.isInit = true := by simp [PrefixTreeCache.isInit, hinit]
  have hlev : (copath.length + (2 ^ 64 - 1)) % 2 ^ 64 = copath.length - 1 := by
    omega
  have hnot : ¬ (copath.length + (2 ^ 64 - 1)) % 2 ^ 64 > 255 := by omega
  have hlong : ¬ copath.length > 256 := by omega
  simp only [PrefixTreeCache.apply_update, hInit, Bool.not_true,
    Bool.false_eq_true, if_false]
  rw [fake_eq_ok sha index copath old_seed hnot, hlev]
  simp only [PrefixProof.compute_root]
  constructor
  · intro hmm
    rw [if_pos hmm]
  · intro heq
    rw [if_neg (fun hcon => hcon heq)]
    cases real with
    | true =>
      simp only [if_true]
      rw [real_eq_ok sha ⟨index, 0, st.size⟩ copath seed hlong]
      simp only [applyProof, PrefixProof.compute_root]
    | false =>
      simp only [Bool.false_eq_true, if_false]
      rw [fake_eq_ok sha index copath seed hnot, hlev]
      simp only [applyProof, PrefixProof.compute_root]

/-- Concrete instance of C2: a fake `DifferentKey` update against a matching
head succeeds and advances the size to 2. -/
theorem different_key_semantics_witness :
    PrefixTreeCache.apply_update shaTriv ⟨[], 1⟩
        (.DifferentKey false [] [] [] [[]]) = (⟨[], 2⟩, none) := by
  have h := (different_key_semantics shaTriv ⟨[], 1⟩ false [] [] [] [[]]
    (by decide) (by decide) (by decide)).2 (by decide)
  exact h.trans (by decide)

/-- The sizes of `insertLoop`'s result are the binary-counter carry step
applied to the sizes. -/
theorem insertLoop_sizes (sha : Bytes → Bytes) (l : List LogNode) :
    ∀ node : LogNode,
      (insertLoop sha node l).map (fun n => n.size)
        = bump node.size (l.map (fun n => n.size)) := by
  induction l with
  | nil => intro node; simp [insertLoop, bump]
  | cons x rest ih =>
    intro node
    simp only [insertLoop, List.map_cons, bump]
    by_cases hx : x.size = node.size
    · rw [if_pos hx, if_pos hx, ih]
      congr 1
      exact Nat.mul_comm node.size 2
    · rw [if_neg hx, if_neg hx]
      simp

/-- Doubling commutes with the carry step. -/
theorem bump_map_double (l : List Nat) : ∀ s : Nat,
    bump (2 * s) (l.map (fun x => 2 * x)) = (bump s l).map (fun x => 2 * x) := by
  induction l with
  | nil => intro s; simp [bump]
  | cons x rest ih =>
    intro s
    simp only [List.map_cons, bump]
    by_cases hx : x = s
    · have h2 : 2 * x = 2 * s := by omega
      rw [if_pos h2, if_pos hx, ← ih]
    · have h2 : ¬ 2 * x = 2 * s := by omega
      rw [if_neg h2, if_neg hx, List.map_cons, List.map_cons]

/-- The branch structure of `binAsc` as a plain equation. -/
theorem binAsc_def (n : Nat) : binAsc n =
    if n = 0 then []
    else if n % 2 = 1 then 1 :: (binAsc (n / 2)).map (fun x => 2 * x)
    else (binAsc (n / 2)).map (fun x => 2 * x) := by
  rw [binAsc]
  by_cases h : n = 0
  · rw [dif_pos h, if_pos h]
  · rw [dif_neg h, if_neg h]

/-- `binAsc` of a positive number is non-empty. -/
theorem binAsc_ne_nil (n : Nat) (h : n ≠ 0) : binAsc n ≠ [] := by
  induction n using Nat.strong_induction_on with
  | _ n ih =>
    rw [binAsc_def]
    rw [if_neg h]
    by_cases h2 : n % 2 = 1
    · simp [h2]
    · rw [if_neg h2]
      have hm : n / 2 ≠ 0 := by omega
      have := ih (n / 2) (by omega) hm
      simpa using this

/-- Inserting one more leaf bumps the binary counter: the carry step on
`binAsc n` yields `binAsc (n + 1)`. -/
theorem bump_binAsc (n : Nat) : bump 1 (binAsc n) = binAsc (n + 1) := by
  induction n using Nat.strong_induction_on with
  | _ n ih =>
    by_cases h : n = 0
    · subst h
      have h0 : binAsc 0 = [] := by rw [binAsc_def]; norm_num
      have h1 : binAsc 1 = [1] := by rw [binAsc_def]; norm_num [h0]
      rw [h0, h1]
      rfl
    · by_cases h2 : n % 2 = 1
      · rw [binAsc_def, if_neg h, if_pos h2]
        have hodd : bump 1 (1 :: (binAsc (n / 2)).map (fun x => 2 * x))
            = bump 2 ((binAsc (n / 2)).map (fun x => 2 * x)) := by
          simp [bump]
        rw [hodd]
        have h2s : (2 : Nat) = 2 * 1 := rfl
        rw [h2s, bump_map_double, ih (n / 2) (by omega)]
        rw [binAsc_def (n + 1), if_neg (by omega : ¬ n + 1 = 0),
          if_neg (by omega : ¬ (n + 1) % 2 = 1)]
        have : (n + 1) / 2 = n / 2 + 1 := by omega
        rw [this]
      · rw [binAsc_def, if_neg h, if_neg h2]
        have hm : n / 2 ≠ 0 := by omega
        rcases heq : binAsc (n / 2) with _ | ⟨y, t⟩
        · exact absurd heq (binAsc_ne_nil (n / 2) hm)
        · have hy : ¬ 2 * y = 1 := by omega
          rw [List.map_cons]
          rw [show bump 1 (2 * y :: t.map (fun x => 2 * x))
              = 1 :: 2 * y :: t.map (fun x => 2 * x) from by simp [bump, hy]]
          rw [binAsc_def (n + 1), if_neg (by omega : ¬ n + 1 = 0),
            if_pos (by omega : (n + 1) % 2 = 1)]
          have : (n + 1) / 2 = n / 2 := by omega
          rw [this, heq, List.map_cons]

/-- Every element of `binAsc n` is positive. -/
theorem binAsc_pos (n : Nat) : ∀ s ∈ binAsc n, 0 < s := by
  induction n using Nat.strong_induction_on with
  | _ n ih =>
    rw [binAsc_def]
    by_cases h : n = 0
    · simp [h]
    · by_cases h2 : n % 2 = 1
      · rw [if_neg h, if_pos h2]
        intro s hs
        rcases List.mem_cons.mp hs with rfl | hs
        · omega
        · rcases List.mem_map.mp hs with ⟨t, ht, rfl⟩
          have := ih (n / 2) (by omega) t ht
          omega
      · rw [if_neg h, if_neg h2]
        intro s hs
        rcases List.mem_map.mp hs with ⟨t, ht, rfl⟩
        have := ih (n / 2) (by omega) t ht
        omega

/-- `binAsc n` is strictly increasing. -/
theorem binAsc_sorted (n : Nat) : (binAsc n).Pairwise (· < ·) := by
  induction n using Nat.strong_induction_on with
  | _ n ih =>
    rw [binAsc_def]
    by_cases h : n = 0
    · simp [h]
    · have hmap : ((binAsc (n / 2)).map (fun x => 2 * x)).Pairwise (· < ·) := by
        refine List.Pairwise.map _ ?_ (ih (n / 2) (by omega))
        intro a b hab
        omega
      by_cases h2 : n % 2 = 1
      · rw [if_neg h, if_pos h2]
        refine List.pairwise_cons.mpr ⟨?_, hmap⟩
        intro s hs
        rcases List.mem_map.mp hs with ⟨t, ht, rfl⟩
        have := binAsc_pos (n / 2) t ht
        omega
      · rw [if_neg h, if_neg h2]
        exact hmap

/-- The elements of `binAsc n` are exactly the powers of two at the set bits
of `n`. -/
theorem binAsc_mem (n : Nat) : ∀ s : Nat,
    s ∈ binAsc n ↔ ∃ k, s = 2 ^ k ∧ n.testBit k := by
  induction n using Nat.strong_induction_on with
  | _ n ih =>
    intro s
    rw [binAsc_def]
    by_cases h : n = 0
    · simp [h, Nat.zero_testBit]
    · by_cases h2 : n % 2 = 1
      · rw [if_neg h, if_pos h2]
        constructor
        · intro hs
          rcases List.mem_cons.mp hs with rfl | hs
          · exact ⟨0, by simp [Nat.testBit_zero, h2]⟩
          · rcases List.mem_map.mp hs with ⟨t, ht, rfl⟩
            rcases (ih (n / 2) (by omega) t).mp ht with ⟨k, rfl, hbit⟩
            exact ⟨k + 1, by rw [pow_succ]; ring_nf,
              by rw [Nat.testBit_succ]; exact hbit⟩
        · rintro ⟨k, rfl, hbit⟩
          cases k with
          | zero => simp
          | succ j =>
            rw [Nat.testBit_succ] at hbit
            refine List.mem_cons.mpr (Or.inr (List.mem_map.mpr ⟨2 ^ j, ?_, ?_⟩))
            · exact (ih (n / 2) (by omega) (2 ^ j)).mpr ⟨j, rfl, hbit⟩
            · rw [pow_succ]; ring_nf
      · rw [if_neg h, if_neg h2]
        constructor
        · intro hs
          rcases List.mem_map.mp hs with ⟨t, ht, rfl⟩
          rcases (ih (n / 2) (by omega) t).mp ht with ⟨k, rfl, hbit⟩
          exact ⟨k + 1, by rw [pow_succ]; ring_nf,
            by rw [Nat.testBit_succ]; exact hbit⟩
        · rintro ⟨k, rfl, hbit⟩
          cases k with
          | zero =>
            rw [Nat.testBit_zero] at hbit
            simp at hbit
            omega
          | succ j =>
            rw [Nat.testBit_succ] at hbit
            refine List.mem_map.mpr ⟨2 ^ j, ?_, ?_⟩
            · exact (ih (n / 2) (by omega) (2 ^ j)).mpr ⟨j, rfl, hbit⟩
            · rw [pow_succ]; ring_nf

/-- Folding inserts over any leaf list advances the size multiset as the
binary counter. -/
theorem insert_fold_sizes (sha : Bytes → Bytes) (leaves : List Bytes) :
    ∀ (st : LogTreeCache) (n : Nat),
      st.roots.reverse.map (fun x => x.size) = binAsc n →
      ((leaves.foldl (fun s e => s.insert sha e) st).roots.reverse.map
          (fun x => x.size)) = binAsc (n + leaves.length) := by
  induction leaves with
  | nil => intro st n h; simpa using h
  | cons a rest ih =>
    intro st n h
    simp only [List.foldl_cons]
    have hstep : ((st.insert sha a).roots.reverse.map (fun x => x.size))
        = binAsc (n + 1) := by
      simp only [LogTreeCache.insert, List.reverse_reverse]
      rw [insertLoop_sizes, h]
      exact bump_binAsc n
    have := ih (st.insert sha a) (n + 1) hstep
    rw [this]
    congr 1
    simp
    omega

/-- C6.  After inserting the leaves of any list into an initially empty
`LogTreeCache`, the cached roots' sizes read left to right are exactly the
powers of two set in the binary representation of the number of inserts, in
strictly descending order — in particular the size sequence is strictly
decreasing, so no two adjacent cached nodes share a size. -/
theorem log_tree_shape (sha : Bytes → Bytes) (leaves : List Bytes) :
    ((applyInserts sha leaves).roots.map (fun x => x.size)
        = (binAsc leaves.length).reverse)
    ∧ ((applyInserts sha leaves).roots.map (fun x => x.size)).Pairwise (· > ·)
    ∧ (∀ s : Nat, s ∈ (applyInserts sha leaves).roots.map (fun x => x.size)
        ↔ ∃ k, s = 2 ^ k ∧ leaves.length.testBit k) := by
  have hrev : ((applyInserts sha leaves).roots.reverse.map (fun x => x.size))
      = binAsc leaves.length := by
    have h0 : (LogTreeCache.new.roots.reverse.map (fun x => x.size)) = binAsc 0 := by
      rw [binAsc_def]
      simp [LogTreeCache.new]
    have := insert_fold_sizes sha leaves LogTreeCache.new 0 h0
    simpa [applyInserts] using this
  have hmain : (applyInserts sha leaves).roots.map (fun x => x.size)
      = (binAsc leaves.length).reverse := by
    rw [← hrev, List.map_reverse, List.reverse_reverse]
  refine ⟨hmain, ?_, ?_⟩
  · rw [hmain]
    rw [List.pairwise_reverse]
    exact binAsc_sorted leaves.length
  · intro s
    rw [hmain, List.mem_reverse]
    exact binAsc_mem leaves.length s

/-- The pop-loop of `LogTreeCache::root` is the right-to-left fold. -/
theorem rootLoop_foldr (sha : Bytes → Bytes) (rest : List LogNode) :
    ∀ acc : LogNode,
      rootLoop sha acc rest
        = List.foldr (fun x a => ⟨tree_hash sha x a, x.size + a.size⟩) acc
            rest.reverse := by
  induction rest with
  | nil => intro acc; rfl
  | cons x t ih =>
    intro acc
    simp only [rootLoop, List.reverse_cons, List.foldr_append, List.foldr_cons,
      List.foldr_nil]
    exact ih _

/-- C9.  A log-tree node serializes to exactly 33 bytes — a flag byte that is
0 iff the node is a leaf (size 1) and 1 otherwise, followed by the 32-byte
root; the parent hash of two nodes is SHA-256 of the concatenation of their
33-byte serializations with no additional tag; and on a non-empty cache the
overall log root is the right-to-left fold of the cached nodes under this
parent hash, starting from the rightmost node. -/
theorem log_node_hash_and_root (sha : Bytes → Bytes) :
    (∀ n : LogNode, n.root.length = 32 →
      n.as_bytes.length = 33
      ∧ n.as_bytes.head? = some (if n.size = 1 then 0 else 1)
      ∧ n.as_bytes.tail = n.root)
    ∧ (∀ left right : LogNode,
        tree_hash sha left right = sha (left.as_bytes ++ right.as_bytes))
    ∧ (∀ st : LogTreeCache, st.roots ≠ [] →
        st.fold_root sha = some (specFoldRoot sha st.roots)) := by
  refine ⟨?_, fun left right => rfl, ?_⟩
  · intro n h
    refine ⟨by simp [LogNode.as_bytes, h], ?_, rfl⟩
    simp only [LogNode.as_bytes]
    by_cases h1 : n.size = 1 <;> simp [h1]
  · intro st hne
    rcases hrev : st.roots.reverse with _ | ⟨r, rest⟩
    · exact absurd (List.reverse_eq_nil_iff.mp hrev) hne
    · have hroots : st.roots = rest.reverse ++ [r] := by
        have := congrArg List.reverse hrev
        simpa using this
      simp only [LogTreeCache.fold_root, hrev]
      rw [rootLoop_foldr sha rest r, specFoldRoot, hroots,
        List.dropLast_concat, List.getLastD_concat]

/-- Concrete instance of C9: a 32-byte leaf node serializes to 33 bytes, and a
one-node cache's fold equals the specification's fold. -/
theorem log_node_hash_and_root_witness :
    (LogNode.as_bytes ⟨List.replicate 32 0, 2⟩).length = 33
    ∧ LogTreeCache.fold_root shaTriv ⟨[⟨List.replicate 32 0, 1⟩]⟩
        = some (specFoldRoot shaTriv [⟨List.replicate 32 0, 1⟩]) := by
  constructor
  · exact ((log_node_hash_and_root shaTriv).1 ⟨List.replicate 32 0, 2⟩
      (by simp)).1
  · exact (log_node_hash_and_root shaTriv).2.2 ⟨[⟨List.replicate 32 0, 1⟩]⟩
      (by simp)

/-- C8 counterexample.  `LogTreeCache::root` on a cache holding no nodes does
not return an `EmptyLog` error (its return type `Hash` has no error case): it
panics via `.expect("Log tree is nonempty")` (`src/log/mod.rs:108`). -/
theorem root_empty_cache_panics :
    LogTreeCache.root shaTriv ⟨[]⟩ = RootResult.panicked "Log tree is nonempty" :=
  rfl

/-- C8 as amended.  `LogTreeCache::root` panics (rather than returning an
error) on an empty cache and infallibly returns the folded hash on a
non-empty one; `TransparencyLog::log_root` returns the `NotInitialized`
error on an uninitialized log (size 0) and the log-cache root on an
initialized log with a non-empty cache. -/
theorem root_semantics (sha : Bytes → Bytes) :
    LogTreeCache.root sha ⟨[]⟩ = RootResult.panicked "Log tree is nonempty"
    ∧ (∀ st : LogTreeCache, st.roots ≠ [] → ∃ h, st.root sha = .ok h)
    ∧ (∀ L : TransparencyLog, L.size = 0 →
        L.log_root sha = .error "Log is not initialized")
    ∧ (∀ L : TransparencyLog, 0 < L.size → L.log_cache.roots ≠ [] →
        ∃ h, L.log_cache.fold_root sha = some h ∧ L.log_root sha = .ok h) := by
  refine ⟨rfl, ?_, ?_, ?_⟩
  · intro st hne
    rcases hrev : st.roots.reverse with _ | ⟨r, rest⟩
    · exact absurd (List.reverse_eq_nil_iff.mp hrev) hne
    · exact ⟨(rootLoop sha r rest).root,
        by simp [LogTreeCache.root, LogTreeCache.fold_root, hrev]⟩
  · intro L h
    have h' : L.prefix_cache.size = 0 := h
    simp [TransparencyLog.log_root, TransparencyLog.isInit, TransparencyLog.size, h']
  · intro L h hne
    have h' : ¬ L.prefix_cache.size = 0 := by
      have h0 : 0 < L.prefix_cache.size := h
      omega
    rcases hrev : L.log_cache.roots.reverse with _ | ⟨r, rest⟩
    · exact absurd (List.reverse_eq_nil_iff.mp hrev) hne
    · refine ⟨(rootLoop sha r rest).root, by simp [LogTreeCache.fold_root, hrev], ?_⟩
      simp [TransparencyLog.log_root, TransparencyLog.isInit, TransparencyLog.size,
        h', LogTreeCache.fold_root, hrev]

/-- Concrete instance of C8 (amended): a one-node cache yields a root, and a
fresh log reports `NotInitialized`. -/
theorem root_semantics_witness :
    (∃ h, LogTreeCache.root shaTriv ⟨[⟨[], 1⟩]⟩ = .ok h)
    ∧ TransparencyLog.new.log_root shaTriv = .error "Log is not initialized" :=
  ⟨(root_semantics shaTriv).2.1 ⟨[⟨[], 1⟩]⟩ (by simp),
   (root_semantics shaTriv).2.2.1 TransparencyLog.new rfl⟩

/-- C3.  For every configuration, head, size and timestamp (with the Ed25519
keys of their fixed 32-byte width), the byte string `sign_at_time` signs is
exactly the specification's transcript: ciphersuite `0x00 0x00`, one mode byte
in {1,2,3}, `[0,32]` then the signing key, `[0,32]` then the VRF key, then —
present exactly when the mode is ThirdPartyAuditing — `[0,32]` and the auditor
public key, the 8-byte big-endian tree size, the 8-byte big-endian signed
timestamp and the 32-byte log root; the produced signature is the auditor
key's Ed25519 signature over that byte string. -/
theorem sign_transcript_canonical (a : Auditor) (head : Bytes) (size : Nat)
    (time : Int) (hs : a.config.sig_key.length = 32)
    (hv : a.config.vrf_key.length = 32) (hk : a.verifying_key.length = 32) :
    a.sign_at_time head size time
      = ⟨size, a.sign (specTranscript a.config.mode a.config.sig_key
          a.config.vrf_key a.verifying_key size time head), time⟩
    ∧ (a.config.mode.toByte = 1 ∨ a.config.mode.toByte = 2
        ∨ a.config.mode.toByte = 3) := by
  constructor
  · have h32 : toBytesBE 2 32 = [0, 32] := rfl
    simp only [Auditor.sign_at_time, signMessage, specTranscript, hs, hv, hk, h32]
  · cases a.config.mode <;> simp [DeploymentMode.toByte]

/-- Concrete instance of C3: a third-party-auditing configuration with 32-byte
keys and a constant signing primitive. -/
theorem sign_transcript_canonical_witness :
    Auditor.sign_at_time
        ⟨⟨.ThirdPartyAuditing, List.replicate 32 0, List.replicate 32 0⟩,
          (fun _ => []), List.replicate 32 0⟩ [] 5 7
      = ⟨5, [], 7⟩ := by
  have h := (sign_transcript_canonical
    ⟨⟨.ThirdPartyAuditing, List.replicate 32 0, List.replicate 32 0⟩,
      (fun _ => []), List.replicate 32 0⟩ [] 5 7
    (by simp) (by simp) (by simp)).1
  exact h.trans rfl

/-- C4.  `sign_head` takes the wall-clock reading in milliseconds since the
Unix epoch, casts it to a signed 64-bit integer, and produces the tree head
whose timestamp is exactly that value and whose signature is the one
`sign_at_time` produces for the same timestamp. -/
theorem sign_head_millis (a : Auditor) (head : Bytes) (size : Nat)
    (now_millis : Nat) (h : now_millis < 2 ^ 63) :
    a.sign_head head size now_millis
        = a.sign_at_time head size (now_millis : Int)
    ∧ (a.sign_head head size now_millis).timestamp = (now_millis : Int)
    ∧ (a.sign_head head size now_millis).signature
        = (a.sign_at_time head size (now_millis : Int)).signature := by
  have hm : milliToI64 now_millis = (now_millis : Int) := by
    have h64 : now_millis % 2 ^ 64 = now_millis := Nat.mod_eq_of_lt (by omega)
    simp only [milliToI64, h64]
    rw [if_pos h]
  refine ⟨?_, ?_, ?_⟩ <;> simp [Auditor.sign_head, hm, Auditor.sign_at_time]

/-- Concrete instance of C4: signing at wall-clock reading 123 ms yields
timestamp 123, and the same signature as `sign_at_time` at 123. -/
theorem sign_head_millis_witness :
    (Auditor.sign_head
        ⟨⟨.ContactMonitoring, [], []⟩, (fun _ => []), []⟩ [] 0 123).timestamp
      = (123 : Int) :=
  (sign_head_millis ⟨⟨.ContactMonitoring, [], []⟩, (fun _ => []), []⟩ [] 0 123
    (by norm_num)).2.1

/-- C5 (code bug).  `deserialize_head` from
`src/bin/signal-auditor/storage.rs` accepts any envelope whose version byte is
1 and whose payload deserializes — in particular an envelope whose payload was
replaced wholesale after `serialize_head` produced it.  The function takes no
MAC key and the envelope carries no MAC, so no integrity check can fail,
contradicting the claimed (and the source's own doc-commented) HMAC
verification; only a wrong version byte is rejected. -/
theorem deserialize_accepts_any_payload
    (dec : Bytes → Option TransparencyLog) (payload : Bytes)
    (L2 : TransparencyLog) (hdec : dec payload = some L2) :
    deserialize_head dec ⟨1, payload⟩ = .ok L2
    ∧ (∀ (enc : TransparencyLog → Bytes) (L1 : TransparencyLog),
        deserialize_head dec ⟨(serialize_head enc L1).version, payload⟩ = .ok L2)
    ∧ (∀ s : StoredHead, s.version ≠ 1 →
        deserialize_head dec s = .error "Invalid version") := by
  refine ⟨?_, fun enc L1 => ?_, fun s hs => ?_⟩ <;>
    simp [deserialize_head, serialize_head, hdec, *]

/-- Concrete instance of C5: a tampered payload decoding to a fresh log is
accepted. -/
theorem deserialize_accepts_any_payload_witness :
    deserialize_head (fun _ => some TransparencyLog.new) ⟨1, [9]⟩
      = .ok TransparencyLog.new :=
  (deserialize_accepts_any_payload (fun _ => some TransparencyLog.new) [9]
    TransparencyLog.new rfl).1

/-- Concrete instance of C10: two indices agreeing on bit 0 but differing at
bit 7 produce identical outcomes for a one-element-copath fake update. -/
theorem fake_update_depends_on_low_bits_witness :
    PrefixTreeCache.apply_update shaTriv ⟨[], 1⟩
        (.DifferentKey false [0] [] [] [[]])
      = PrefixTreeCache.apply_update shaTriv ⟨[], 1⟩
        (.DifferentKey false [1] [] [] [[]]) :=
  fake_update_depends_on_low_bits shaTriv ⟨[], 1⟩ [] [] [[]] [0] [1]
    (by decide) (by decide)
    (by
      intro j hj
      have hj0 : j = 0 := by simpa using hj
      subst hj0
      decide)
